import Mathlib

/-!
Verification of the dxf-label-diff reconciliation core.

The Python sources under src/utils are shallowly embedded:
* labels are Lean `String`s (compared, as in Python, lexicographically by
  code point);
* coordinates are exact rationals `ℚ` standing for the numeric values the
  program manipulates, with Python's `round` (banker's rounding,
  half-to-even) embedded as `pyRound`;
* a Python `Counter` is represented by a plain `List` (the multiset of its
  elements), counts being recovered with `List.count` or `cnt`, and its key
  set with `List.dedup`;
* the regular-expression character classes `[A-Za-z]` and `\d` are read
  over the code points the labels actually use, `\d` as the ASCII digits;
* Python functions that can raise (division by a zero tolerance) return
  `Option`.
-/

namespace DxfLabelDiff

/-- Python's `round` on an exact rational: round half to even. -/
def pyRound (q : ℚ) : ℤ :=
  let f := ⌊q⌋
  if q - f < 1/2 then f
  else if 1/2 < q - f then f + 1
  else if f % 2 = 0 then f else f + 1

/-- `round_coordinate(value, tolerance)` from `src/utils/compare_labels.py`
(and identically `src/utils/coordinate_comparison.py`):
`round(value / tolerance) * tolerance`.  A zero tolerance raises
`ZeroDivisionError` in Python, embedded as `none`. -/
def round_coordinate (value tolerance : ℚ) : Option ℚ :=
  if tolerance = 0 then none
  else some ((pyRound (value / tolerance) : ℚ) * tolerance)

/-- The value computed by `round_coordinate` when the tolerance is nonzero. -/
def roundVal (value tolerance : ℚ) : ℚ :=
  (pyRound (value / tolerance) : ℚ) * tolerance

theorem round_coordinate_eq_some (value tolerance : ℚ) (h : tolerance ≠ 0) :
    round_coordinate value tolerance = some (roundVal value tolerance) := by
  simp [round_coordinate, roundVal, h]

theorem pyRound_intCast (n : ℤ) : pyRound (n : ℚ) = n := by
  have hf : ⌊(n : ℚ)⌋ = n := Int.floor_intCast n
  simp only [pyRound, hf]
  norm_num

/-! ### Coordinate-agnostic multiset diff engine
(`compare_labels_multi`, `src/utils/compare_labels.py`, conventional branch,
lines 134-158). -/

/-- The `sort_order` option of `compare_labels_multi` (`"asc"`, `"desc"`,
`"none"`).  Inside `compare_labels_multi` it is only forwarded to the
external extraction call. -/
inductive SortOrder where
  | asc
  | desc
  | none
deriving DecidableEq, Repr

/-- One row of the diff table (`Label`, the two count columns, `Status`,
`Diff (B-A)`). -/
structure Row where
  label : String
  count_a : ℕ
  count_b : ℕ
  status : String
  diff : ℤ
deriving DecidableEq, Repr

/-- The status chain shared by both branches of `compare_labels_multi`
(lines 114-121 and 151-155): `A Only` if `count_a > 0 and count_b == 0`,
else `B Only` if `count_a == 0 and count_b > 0`, else `Different` if
`count_a != count_b`, else `Same`. -/
def statusOf (ca cb : ℕ) : String :=
  if 0 < ca ∧ cb = 0 then "A Only"
  else if ca = 0 ∧ 0 < cb then "B Only"
  else if ca ≠ cb then "Different"
  else "Same"

/-- `set(list(counter_a.keys()) + list(counter_b.keys()))`: the distinct
labels of both sides. -/
def unionLabels (la lb : List String) : List String :=
  (la.dedup ++ lb.dedup).dedup

/-- Lexicographic comparison of character sequences by code point: the
order Python's `sorted` uses on `str` values. -/
def charListLe : List Char → List Char → Bool
  | [], _ => true
  | _ :: _, [] => false
  | a :: as, b :: bs =>
    if a.toNat < b.toNat then true
    else if b.toNat < a.toNat then false
    else charListLe as bs

theorem charListLe_refl (x : List Char) : charListLe x x = true := by
  induction x with
  | nil => rfl
  | cons a as ih => simp [charListLe, ih]

theorem charListLe_total (x y : List Char) :
    charListLe x y = true ∨ charListLe y x = true := by
  induction x generalizing y with
  | nil => exact Or.inl rfl
  | cons a as ih =>
    cases y with
    | nil => exact Or.inr rfl
    | cons b bs =>
      rcases Nat.lt_trichotomy a.toNat b.toNat with h | h | h
      · exact Or.inl (by simp [charListLe, h])
      · rcases ih bs with h2 | h2
        · exact Or.inl (by simp [charListLe, h, h2])
        · exact Or.inr (by simp [charListLe, h.symm, h2])
      · exact Or.inr (by simp [charListLe, h])

theorem charListLe_trans {x y z : List Char} (h1 : charListLe x y = true)
    (h2 : charListLe y z = true) : charListLe x z = true := by
  induction x generalizing y z with
  | nil => rfl
  | cons a as ih =>
    cases y with
    | nil => simp [charListLe] at h1
    | cons b bs =>
      cases z with
      | nil => simp [charListLe] at h2
      | cons c cs =>
        rcases Nat.lt_trichotomy a.toNat b.toNat with hab | hab | hab
        · rcases Nat.lt_trichotomy b.toNat c.toNat with hbc | hbc | hbc
          · have hac : a.toNat < c.toNat := by omega
            simp [charListLe, hac]
          · have hac : a.toNat < c.toNat := by omega
            simp [charListLe, hac]
          · exfalso
            have hbc2 : ¬ b.toNat < c.toNat := by omega
            simp [charListLe, hbc2, hbc] at h2
        · rcases Nat.lt_trichotomy b.toNat c.toNat with hbc | hbc | hbc
          · have hac : a.toNat < c.toNat := by omega
            simp [charListLe, hac]
          · have hab2 : ¬ a.toNat < b.toNat := by omega
            have hba2 : ¬ b.toNat < a.toNat := by omega
            have hbc2 : ¬ b.toNat < c.toNat := by omega
            have hcb2 : ¬ c.toNat < b.toNat := by omega
            have hac2 : ¬ a.toNat < c.toNat := by omega
            have hca2 : ¬ c.toNat < a.toNat := by omega
            simp [charListLe, hab2, hba2] at h1
            simp [charListLe, hbc2, hcb2] at h2
            simp [charListLe, hac2, hca2]
            exact ih h1 h2
          · exfalso
            have hbc2 : ¬ b.toNat < c.toNat := by omega
            simp [charListLe, hbc2, hbc] at h2
        · exfalso
          have hab2 : ¬ a.toNat < b.toNat := by omega
          simp [charListLe, hab2, hab] at h1

theorem char_eq_of_toNat_eq {a b : Char} (h : a.toNat = b.toNat) : a = b :=
  Char.eq_of_val_eq (UInt32.eq_of_toBitVec_eq (BitVec.eq_of_toNat_eq h))

theorem charListLe_antisymm {x y : List Char} (h1 : charListLe x y = true)
    (h2 : charListLe y x = true) : x = y := by
  induction x generalizing y with
  | nil =>
    cases y with
    | nil => rfl
    | cons b bs => simp [charListLe] at h2
  | cons a as ih =>
    cases y with
    | nil => simp [charListLe] at h1
    | cons b bs =>
      rcases Nat.lt_trichotomy a.toNat b.toNat with hab | hab | hab
      · exfalso
        have hba2 : ¬ b.toNat < a.toNat := by omega
        simp [charListLe, hba2, hab] at h2
      · have hab2 : ¬ a.toNat < b.toNat := by omega
        have hba2 : ¬ b.toNat < a.toNat := by omega
        simp [charListLe, hab2, hba2] at h1 h2
        have hc : a = b := char_eq_of_toNat_eq hab
        rw [hc, ih h1 h2]
      · exfalso
        have hab2 : ¬ a.toNat < b.toNat := by omega
        simp [charListLe, hab2, hab] at h1

/-- Python's `<=` on `str`: code-point lexicographic order. -/
def strLe (s t : String) : Prop := charListLe s.data t.data = true

instance : DecidableRel strLe := fun s t => by
  unfold strLe; infer_instance

instance : IsTotal String strLe where
  total s t := charListLe_total s.data t.data

instance : IsTrans String strLe where
  trans _ _ _ h1 h2 := charListLe_trans h1 h2

theorem strLe_antisymm {s t : String} (h1 : strLe s t) (h2 : strLe t s) :
    s = t := by
  cases s; cases t
  exact congrArg String.mk (charListLe_antisymm h1 h2)

/-- Python's `sorted` on a list of strings. -/
def sortStrings (l : List String) : List String :=
  List.insertionSort strLe l

/-- The row built for one label of the union: raw occurrence counts on the
two sides, the status, and `Diff (B-A) = count_b - count_a`. -/
def mkRow (la lb : List String) (label : String) : Row :=
  { label := label
    count_a := la.count label
    count_b := lb.count label
    status := statusOf (la.count label) (lb.count label)
    diff := (lb.count label : ℤ) - (la.count label : ℤ) }

/-- The rows of the coordinate-agnostic branch of `compare_labels_multi`:
`all_labels = sorted(set(list(counter_a.keys()) + list(counter_b.keys())))`
followed by the count, `Status` and `Diff (B-A)` columns.  `sort_order` is
accepted (as by the Python function) but, as in the source, never consulted
when the union is built: line 140 sorts unconditionally. -/
def compare_labels_rows (so : SortOrder) (la lb : List String) : List Row :=
  let _ := so
  (sortStrings (unionLabels la lb)).map (mkRow la lb)

theorem mem_unionLabels {la lb : List String} {label : String} :
    label ∈ unionLabels la lb ↔ label ∈ la ∨ label ∈ lb := by
  simp [unionLabels]

theorem mem_compare_labels_rows_of_mem_union {la lb : List String}
    {label : String} (so : SortOrder) (h : label ∈ unionLabels la lb) :
    mkRow la lb label ∈ compare_labels_rows so la lb := by
  apply List.mem_map_of_mem
  exact (List.perm_insertionSort strLe (unionLabels la lb)).mem_iff.mpr h

/-- C1: for every label of the union of the two sides' distinct labels, the
coordinate-agnostic engine's row satisfies the four status
characterisations (which partition the union, each right-hand side
excluding the others) and carries `diff = count_b - count_a`. -/
theorem status_partitions_union (so : SortOrder) (la lb : List String)
    (label : String) (h : label ∈ unionLabels la lb) :
    mkRow la lb label ∈ compare_labels_rows so la lb ∧
    ((mkRow la lb label).status = "A Only" ↔
      0 < la.count label ∧ lb.count label = 0) ∧
    ((mkRow la lb label).status = "B Only" ↔
      la.count label = 0 ∧ 0 < lb.count label) ∧
    ((mkRow la lb label).status = "Different" ↔
      0 < la.count label ∧ 0 < lb.count label ∧
        la.count label ≠ lb.count label) ∧
    ((mkRow la lb label).status = "Same" ↔
      0 < la.count label ∧ 0 < lb.count label ∧
        la.count label = lb.count label) ∧
    (mkRow la lb label).diff = (lb.count label : ℤ) - (la.count label : ℤ) := by
  have hpos : 0 < la.count label ∨ 0 < lb.count label := by
    rcases mem_unionLabels.mp h with hm | hm
    · exact Or.inl (List.count_pos_iff.mpr hm)
    · exact Or.inr (List.count_pos_iff.mpr hm)
  refine ⟨mem_compare_labels_rows_of_mem_union so h, ?_⟩
  simp only [mkRow, statusOf]
  rcases Nat.eq_zero_or_pos (la.count label) with ha | ha <;>
    rcases Nat.eq_zero_or_pos (lb.count label) with hb | hb
  · omega
  · simp [ha, hb, Nat.pos_iff_ne_zero.mp hb]
  · simp [ha, hb, Nat.pos_iff_ne_zero.mp ha]
  · rcases eq_or_ne (la.count label) (lb.count label) with he | he
    · simp [hb, he, Nat.pos_iff_ne_zero.mp hb]
    · simp [ha, hb, he, Nat.pos_iff_ne_zero.mp ha, Nat.pos_iff_ne_zero.mp hb]

theorem status_partitions_union_witness :
    ("x" ∈ unionLabels ["x", "y"] ["y", "y"]) ∧
    (mkRow ["x", "y"] ["y", "y"] "x" ∈
      compare_labels_rows SortOrder.asc ["x", "y"] ["y", "y"] ∧
    ((mkRow ["x", "y"] ["y", "y"] "x").status = "A Only" ↔
      0 < List.count "x" ["x", "y"] ∧ List.count "x" ["y", "y"] = 0) ∧
    ((mkRow ["x", "y"] ["y", "y"] "x").status = "B Only" ↔
      List.count "x" ["x", "y"] = 0 ∧ 0 < List.count "x" ["y", "y"]) ∧
    ((mkRow ["x", "y"] ["y", "y"] "x").status = "Different" ↔
      0 < List.count "x" ["x", "y"] ∧ 0 < List.count "x" ["y", "y"] ∧
        List.count "x" ["x", "y"] ≠ List.count "x" ["y", "y"]) ∧
    ((mkRow ["x", "y"] ["y", "y"] "x").status = "Same" ↔
      0 < List.count "x" ["x", "y"] ∧ 0 < List.count "x" ["y", "y"] ∧
        List.count "x" ["x", "y"] = List.count "x" ["y", "y"]) ∧
    (mkRow ["x", "y"] ["y", "y"] "x").diff =
      (List.count "x" ["y", "y"] : ℤ) - (List.count "x" ["x", "y"] : ℤ)) :=
  ⟨by decide, status_partitions_union SortOrder.asc _ _ "x" (by decide)⟩

/-- The union row order the spec prescribes for the "no sort" mode:
first-encounter order of the union construction (`Counter` keys of side A,
then the unseen keys of side B). -/
def specFirstEncounterUnion (la lb : List String) : List String :=
  (la.dedup ++ lb.dedup).dedup

/-- C4 counterexample: the engine ignores the sort mode.  With "no sort"
requested and input A = `["B", "A"]`, the claim demands first-encounter
order `["B", "A"]`, but the rows come out lexicographically sorted
`["A", "B"]`; with descending requested and input A = `["A", "B"]`, the
claim demands `["B", "A"]`, but the rows again come out `["A", "B"]`. -/
theorem sort_mode_counterexample :
    specFirstEncounterUnion ["B", "A"] [] = ["B", "A"] ∧
    (compare_labels_rows SortOrder.none ["B", "A"] []).map Row.label =
      ["A", "B"] ∧
    (compare_labels_rows SortOrder.none ["B", "A"] []).map Row.label ≠
      specFirstEncounterUnion ["B", "A"] [] ∧
    (compare_labels_rows SortOrder.desc ["A", "B"] []).map Row.label ≠
      ["B", "A"] := by
  refine ⟨by decide, by decide, by decide, by decide⟩

/-- C4 amended: the row order of the coordinate-agnostic engine is always
ascending lexicographic in the label text, whatever sort mode is
requested; the sort mode has no effect on the rows. -/
theorem rows_always_sorted_asc (so : SortOrder) (la lb : List String) :
    List.Sorted strLe ((compare_labels_rows so la lb).map Row.label) ∧
    compare_labels_rows so la lb = compare_labels_rows SortOrder.asc la lb := by
  constructor
  · have hmap : (compare_labels_rows so la lb).map Row.label =
        sortStrings (unionLabels la lb) := by
      simp only [compare_labels_rows, List.map_map]
      rw [show Row.label ∘ mkRow la lb = id from funext fun s => rfl,
        List.map_id]
    rw [hmap]
    exact List.sorted_insertionSort strLe (unionLabels la lb)
  · rfl

/-- C6: rounding to the tolerance grid is idempotent for every value and
every positive tolerance. -/
theorem round_coordinate_idempotent (v t : ℚ) (h : 0 < t) :
    ∃ r, round_coordinate v t = some r ∧ round_coordinate r t = some r := by
  have ht : t ≠ 0 := ne_of_gt h
  refine ⟨roundVal v t, round_coordinate_eq_some v t ht, ?_⟩
  rw [round_coordinate_eq_some _ t ht]
  unfold roundVal
  rw [mul_div_cancel_right₀ _ ht, pyRound_intCast]

theorem round_coordinate_idempotent_witness :
    (0 : ℚ) < 1/100 ∧
    ∃ r, round_coordinate (5/2) (1/100) = some r ∧
      round_coordinate r (1/100) = some r :=
  ⟨by norm_num, round_coordinate_idempotent (5/2) (1/100) (by norm_num)⟩

/-- C5 amended: the coordinate rounder fails exactly when the tolerance is
zero (Python's `ZeroDivisionError` at the division by the tolerance); a
negative tolerance is not rejected anywhere, and no validation runs before
reconciliation. -/
theorem round_coordinate_fails_iff_zero (v t : ℚ) :
    round_coordinate v t = Option.none ↔ t = 0 := by
  unfold round_coordinate
  split_ifs with h <;> simp [h]

/-! ### Coordinate aggregator
(`aggregate_by_label`, `src/utils/coordinate_comparison.py`, lines 50-119).
A `Counter` of `(label, x, y)` tuples is embedded as the list of its
elements. -/

/-- A `(label, x, y)` tuple. -/
abbrev LTup : Type := String × ℚ × ℚ

/-- The multiplicity of `x` in the multiset `l`: `counter[x]` for the
`Counter` built from `l`. -/
def cnt {α : Type} [DecidableEq α] (l : List α) (x : α) : ℕ :=
  l.countP (fun y => y = x)

theorem cnt_pos {α : Type} [DecidableEq α] {l : List α} {x : α} :
    0 < cnt l x ↔ x ∈ l := by
  unfold cnt
  rw [List.countP_pos_iff]
  constructor
  · rintro ⟨a, ha, he⟩
    simp only [decide_eq_true_eq] at he
    rwa [← he]
  · intro h
    exact ⟨x, h, by simp⟩

theorem cnt_eq_zero {α : Type} [DecidableEq α] {l : List α} {x : α}
    (h : x ∉ l) : cnt l x = 0 := by
  by_contra hne
  exact h (cnt_pos.mp (Nat.pos_of_ne_zero hne))

theorem cnt_cons {α : Type} [DecidableEq α] (a : α) (l : List α) (x : α) :
    cnt (a :: l) x = cnt l x + if a = x then 1 else 0 := by
  simp [cnt, List.countP_cons]

/-- The per-label triple built by `aggregate_by_label`. -/
structure LabelSummary where
  a_only : ℕ
  b_only : ℕ
  common : ℕ
deriving DecidableEq, Repr

/-- The entry `label_summary[label]` after the three loops of
`aggregate_by_label`: tuples only in A contribute their full A-count to
`a_only` (mirrored for B), and tuples present in both sides contribute
`min(count_a, count_b)` to `common`, the heavier side's remainder going to
that side's exclusive bucket. -/
def aggregate_by_label (la lb : List LTup) (label : String) : LabelSummary :=
  let aOnlyT := la.dedup.filter (fun p => p ∉ lb)
  let bOnlyT := lb.dedup.filter (fun p => p ∉ la)
  let commonT := la.dedup.filter (fun p => p ∈ lb)
  { a_only :=
      ((aOnlyT.filter (fun p => p.1 = label)).map (cnt la)).sum +
      ((commonT.filter (fun p => p.1 = label)).map
        (fun p => if cnt lb p < cnt la p then cnt la p - cnt lb p
          else 0)).sum
    b_only :=
      ((bOnlyT.filter (fun p => p.1 = label)).map (cnt lb)).sum +
      ((commonT.filter (fun p => p.1 = label)).map
        (fun p => if cnt la p < cnt lb p then cnt lb p - cnt la p
          else 0)).sum
    common :=
      ((commonT.filter (fun p => p.1 = label)).map
        (fun p => min (cnt la p) (cnt lb p))).sum }

theorem sum_map_add {α : Type} (l : List α) (f g : α → ℕ) :
    (l.map f).sum + (l.map g).sum = (l.map (fun a => f a + g a)).sum := by
  induction l with
  | nil => rfl
  | cons a as ih => simp only [List.map_cons, List.sum_cons]; omega

theorem sum_map_filter_split {α : Type} (l : List α) (p q : α → Bool)
    (f : α → ℕ) :
    ((l.filter (fun a => p a && !(q a))).map f).sum +
      ((l.filter (fun a => p a && q a)).map f).sum =
      ((l.filter p).map f).sum := by
  induction l with
  | nil => rfl
  | cons a as ih =>
    by_cases hq : q a <;> by_cases hp : p a <;>
      simp [List.filter_cons, hq, hp] <;> omega

theorem sum_map_indicator {α : Type} [DecidableEq α] (a : α) (L : List α)
    (h : L.Nodup) :
    (L.map (fun y => if a = y then 1 else 0)).sum = if a ∈ L then 1 else 0 := by
  induction L with
  | nil => rfl
  | cons b bs ih =>
    rcases List.nodup_cons.mp h with ⟨hb, hbs⟩
    by_cases hab : a = b
    · subst hab
      have hz : (bs.map (fun y => if a = y then 1 else 0)).sum = 0 := by
        apply List.sum_eq_zero
        intro n hn
        rcases List.mem_map.mp hn with ⟨y, hy, he⟩
        have hne : a ≠ y := fun hay => hb (hay.symm ▸ hy)
        rw [if_neg hne] at he
        exact he.symm
      simp [hz, hb]
    · have hmem : (a ∈ b :: bs) = (a ∈ bs) := by
        simp [List.mem_cons, hab]
      simp only [List.map_cons, List.sum_cons, if_neg hab, Nat.zero_add,
        ih hbs, hmem]

theorem sum_cnt_dedup_filter {α : Type} [DecidableEq α] (p : α → Bool)
    (l : List α) :
    ((l.dedup.filter p).map (cnt l)).sum = l.countP p := by
  induction l with
  | nil => rfl
  | cons a as ih =>
    have hmapeq : ((a :: as).dedup.filter p).map (cnt (a :: as)) =
        ((a :: as).dedup.filter p).map
          (fun y => cnt as y + if a = y then 1 else 0) :=
      List.map_congr_left fun y _ => cnt_cons a as y
    rw [hmapeq, ← sum_map_add, List.countP_cons]
    have hnodup : ((a :: as).dedup.filter p).Nodup :=
      (List.nodup_dedup _).filter _
    have hind : (((a :: as).dedup.filter p).map
        (fun y => if a = y then 1 else 0)).sum =
        if p a = true then 1 else 0 := by
      rw [sum_map_indicator a _ hnodup]
      have hiff : a ∈ (a :: as).dedup.filter p ↔ p a = true := by
        simp [List.mem_filter]
      by_cases hp : p a = true
      · rw [if_pos (hiff.mpr hp), if_pos hp]
      · rw [if_neg (fun hm => hp (hiff.mp hm)), if_neg hp]
    have hbase : (((a :: as).dedup.filter p).map (cnt as)).sum =
        as.countP p := by
      by_cases hmem : a ∈ as
      · rw [List.dedup_cons_of_mem hmem]
        exact ih
      · rw [List.dedup_cons_of_not_mem hmem]
        by_cases hp : p a
        · rw [List.filter_cons_of_pos hp]
          simp only [List.map_cons, List.sum_cons, cnt_eq_zero hmem,
            Nat.zero_add]
          exact ih
        · rw [List.filter_cons_of_neg hp]
          exact ih
    rw [hbase, hind]

/-- C2: per-label completeness of the coordinate aggregator's
reconciliation: `a_only + common` recovers the total number of occurrences
of the label on side A, `b_only + common` the total on side B, and all
three components are non-negative. -/
theorem aggregate_by_label_complete (la lb : List LTup) (label : String) :
    (aggregate_by_label la lb label).a_only +
        (aggregate_by_label la lb label).common =
      (la.filter (fun p => p.1 = label)).length ∧
    (aggregate_by_label la lb label).b_only +
        (aggregate_by_label la lb label).common =
      (lb.filter (fun p => p.1 = label)).length ∧
    0 ≤ (aggregate_by_label la lb label).a_only ∧
    0 ≤ (aggregate_by_label la lb label).b_only ∧
    0 ≤ (aggregate_by_label la lb label).common := by
  refine ⟨?_, ?_, Nat.zero_le _, Nat.zero_le _, Nat.zero_le _⟩
  · show (((la.dedup.filter (fun p => p ∉ lb)).filter
        (fun p => p.1 = label)).map (cnt la)).sum +
      (((la.dedup.filter (fun p => p ∈ lb)).filter
        (fun p => p.1 = label)).map
          (fun p => if cnt lb p < cnt la p then cnt la p - cnt lb p
            else 0)).sum +
      (((la.dedup.filter (fun p => p ∈ lb)).filter
        (fun p => p.1 = label)).map
          (fun p => min (cnt la p) (cnt lb p))).sum =
      (la.filter (fun p => p.1 = label)).length
    rw [Nat.add_assoc, sum_map_add]
    have hpt : (((la.dedup.filter (fun p => p ∈ lb)).filter
        (fun p => p.1 = label)).map
          (fun p => (if cnt lb p < cnt la p then cnt la p - cnt lb p
            else 0) + min (cnt la p) (cnt lb p))).sum =
        (((la.dedup.filter (fun p => p ∈ lb)).filter
          (fun p => p.1 = label)).map (cnt la)).sum := by
      apply congrArg
      apply List.map_congr_left
      intro p hp
      rcases Nat.lt_or_ge (cnt lb p) (cnt la p) with h | h
      · simp only [if_pos h]
        omega
      · have hmem : p ∈ lb := by
          simp only [List.mem_filter, List.mem_dedup, decide_eq_true_eq] at hp
          exact hp.1.2
        have : 0 < cnt lb p := cnt_pos.mpr hmem
        simp only [if_neg (not_lt.mpr h)]
        omega
    rw [hpt]
    simp only [List.filter_filter, decide_not]
    rw [sum_map_filter_split la.dedup (fun p => decide (p.1 = label))
      (fun p => decide (p ∈ lb)) (cnt la)]
    rw [sum_cnt_dedup_filter]
    exact List.countP_eq_length_filter _ _
  · show (((lb.dedup.filter (fun p => p ∉ la)).filter
        (fun p => p.1 = label)).map (cnt lb)).sum +
      (((la.dedup.filter (fun p => p ∈ lb)).filter
        (fun p => p.1 = label)).map
          (fun p => if cnt la p < cnt lb p then cnt lb p - cnt la p
            else 0)).sum +
      (((la.dedup.filter (fun p => p ∈ lb)).filter
        (fun p => p.1 = label)).map
          (fun p => min (cnt la p) (cnt lb p))).sum =
      (lb.filter (fun p => p.1 = label)).length
    rw [Nat.add_assoc, sum_map_add]
    have hpt : (((la.dedup.filter (fun p => p ∈ lb)).filter
        (fun p => p.1 = label)).map
          (fun p => (if cnt la p < cnt lb p then cnt lb p - cnt la p
            else 0) + min (cnt la p) (cnt lb p))).sum =
        (((la.dedup.filter (fun p => p ∈ lb)).filter
          (fun p => p.1 = label)).map (cnt lb)).sum := by
      apply congrArg
      apply List.map_congr_left
      intro p hp
      rcases Nat.lt_or_ge (cnt la p) (cnt lb p) with h | h
      · simp only [if_pos h]
        omega
      · have hmem : p ∈ la := by
          simp only [List.mem_filter, List.mem_dedup, decide_eq_true_eq] at hp
          exact hp.1.1
        have : 0 < cnt la p := cnt_pos.mpr hmem
        simp only [if_neg (not_lt.mpr h)]
        omega
    rw [hpt]
    have hswap : (((la.dedup.filter (fun p => p ∈ lb)).filter
        (fun p => p.1 = label)).map (cnt lb)).sum =
        (((lb.dedup.filter (fun p => p ∈ la)).filter
          (fun p => p.1 = label)).map (cnt lb)).sum := by
      apply (((List.perm_ext_iff_of_nodup ?_ ?_).mpr ?_).map (cnt lb)).sum_eq
      · exact ((List.nodup_dedup la).filter _).filter _
      · exact ((List.nodup_dedup lb).filter _).filter _
      · intro p
        simp only [List.mem_filter, List.mem_dedup, decide_eq_true_eq]
        tauto
    rw [hswap]
    simp only [List.filter_filter, decide_not]
    rw [sum_map_filter_split lb.dedup (fun p => decide (p.1 = label))
      (fun p => decide (p ∈ la)) (cnt lb)]
    rw [sum_cnt_dedup_filter]
    exact List.countP_eq_length_filter _ _

/-! ### Symbol classifier
(`filter_non_circuit_symbols`, `src/utils/common_utils.py`, lines 19-78).
Each of the six `^...$` patterns is embedded as a whole-sequence matcher
over the label's characters.  Python's `re.match` with a `$`-terminated
pattern also succeeds when the pattern matches everything before a single
trailing newline; `pyFullMatch` reproduces that. -/

/-- The character class `[A-Za-z]`. -/
def isAsciiLetter (c : Char) : Bool :=
  (65 ≤ c.toNat && c.toNat ≤ 90) || (97 ≤ c.toNat && c.toNat ≤ 122)

/-- The character class `\d`, read over ASCII digits. -/
def isAsciiDigit (c : Char) : Bool :=
  48 ≤ c.toNat && c.toNat ≤ 57

/-- `^[A-Za-z]{2,}$`: two or more letters. -/
def patLetters (cs : List Char) : Bool :=
  2 ≤ cs.length && cs.all isAsciiLetter

/-- `^[A-Za-z]+\d+$`: letters then digits. -/
def patLettersDigits (cs : List Char) : Bool :=
  let a := cs.takeWhile isAsciiLetter
  let r := cs.dropWhile isAsciiLetter
  !a.isEmpty && !r.isEmpty && r.all isAsciiDigit

/-- `^[A-Za-z]+\d+[A-Za-z]+$`: letters, digits, then letters. -/
def patLettersDigitsLetters (cs : List Char) : Bool :=
  let a := cs.takeWhile isAsciiLetter
  let r := cs.dropWhile isAsciiLetter
  let d := r.takeWhile isAsciiDigit
  let r2 := r.dropWhile isAsciiDigit
  !a.isEmpty && !d.isEmpty && !r2.isEmpty && r2.all isAsciiLetter

/-- `^<core>\([^)]*\)$`: a core match immediately followed by a
parenthesized suffix holding no close-parenthesis. -/
def parenWrap (coreP : List Char → Bool) (cs : List Char) : Bool :=
  let pre := cs.takeWhile (fun c => c ≠ '(')
  let rest := cs.dropWhile (fun c => c ≠ '(')
  match rest with
  | [] => false
  | _ :: m =>
    !m.isEmpty &&
      (match m.getLast? with
        | some c => decide (c = ')')
        | _ => false) &&
      m.dropLast.all (fun c => c ≠ ')') &&
      coreP pre

/-- Does the character sequence end with a newline? -/
def lastIsNewline (cs : List Char) : Bool :=
  match cs.getLast? with
  | some c => decide (c = '\n')
  | _ => false

/-- Python `re.match` of an `^...$` pattern: the pattern matches the whole
string, or everything before one trailing newline. -/
def pyFullMatch (p : List Char → Bool) (cs : List Char) : Bool :=
  p cs || (lastIsNewline cs && p cs.dropLast)

/-- One label survives the filter iff some of the six patterns matches
(`re.match` semantics). -/
def matchesAnyPattern (s : String) : Bool :=
  pyFullMatch patLetters s.data ||
  pyFullMatch patLettersDigits s.data ||
  pyFullMatch patLettersDigitsLetters s.data ||
  pyFullMatch (parenWrap patLetters) s.data ||
  pyFullMatch (parenWrap patLettersDigits) s.data ||
  pyFullMatch (parenWrap patLettersDigitsLetters) s.data

/-- `filter_non_circuit_symbols`: the kept labels in input order and the
number of rejected labels. -/
def filter_non_circuit_symbols (labels : List String) : List String × ℕ :=
  (labels.filter matchesAnyPattern,
    labels.countP (fun l => !(matchesAnyPattern l)))

/-- The acceptance rule as the spec words it: some of the six patterns
matches the whole string, anchored at both ends, with no newline
allowance. -/
def acceptsWholeString (s : String) : Bool :=
  patLetters s.data ||
  patLettersDigits s.data ||
  patLettersDigitsLetters s.data ||
  parenWrap patLetters s.data ||
  parenWrap patLettersDigits s.data ||
  parenWrap patLettersDigitsLetters s.data

theorem matchesAnyPattern_iff (s : String) :
    matchesAnyPattern s = true ↔
      (acceptsWholeString s = true ∨
        (lastIsNewline s.data = true ∧
          acceptsWholeString (String.mk s.data.dropLast) = true)) := by
  simp only [matchesAnyPattern, acceptsWholeString, pyFullMatch,
    Bool.or_eq_true, Bool.and_eq_true]
  tauto

/-- C7 counterexample: the label `"AB\n"` (letters plus a trailing
newline) matches none of the six patterns as a whole string, yet the
filter keeps it: Python's `$` also matches just before a trailing
newline. -/
theorem filter_newline_counterexample :
    acceptsWholeString (String.mk ['A', 'B', '\n']) = false ∧
    filter_non_circuit_symbols [String.mk ['A', 'B', '\n']] =
      ([String.mk ['A', 'B', '\n']], 0) := by
  refine ⟨by decide, by decide⟩

/-- C7 amended: a label is kept iff one of the six patterns matches it
whole, or matches everything before one trailing newline; the kept labels
form a subsequence of the input; the rejection count is the number of
input labels kept out; and the spec's six concrete examples behave as
stated. -/
theorem filter_non_circuit_symbols_spec (labels : List String) :
    (filter_non_circuit_symbols labels).1.Sublist labels ∧
    (∀ l, l ∈ (filter_non_circuit_symbols labels).1 ↔
      l ∈ labels ∧
        (acceptsWholeString l = true ∨
          (lastIsNewline l.data = true ∧
            acceptsWholeString (String.mk l.data.dropLast) = true))) ∧
    (filter_non_circuit_symbols labels).1.length +
        (filter_non_circuit_symbols labels).2 = labels.length ∧
    filter_non_circuit_symbols ["CNCNT", "R10", "X14A", "FB()", "A", "12"] =
      (["CNCNT", "R10", "X14A", "FB()"], 2) := by
  refine ⟨List.filter_sublist _, ?_, ?_, by decide⟩
  · intro l
    rw [← matchesAnyPattern_iff]
    simp [filter_non_circuit_symbols, List.mem_filter]
  · show (labels.filter matchesAnyPattern).length +
      labels.countP (fun l => !(matchesAnyPattern l)) = labels.length
    rw [← List.countP_eq_length_filter]
    have h := (List.length_eq_countP_add_countP matchesAnyPattern labels).symm
    have hfn : (fun a => decide (¬matchesAnyPattern a = true)) =
        (fun l => !(matchesAnyPattern l)) := by
      funext a
      cases matchesAnyPattern a <;> simp
    rwa [hfn] at h

/-! ### Coordinate-aware comparison mode
(`compare_labels_multi`, `src/utils/compare_labels.py`, lines 84-132): the
branch taken when `compare_with_coordinates` is set.  Rows are keyed by the
whole rounded `(label, x, y)` tuple. -/

/-- Rounding of one `(label, x, y)` tuple (loop of lines 87-97). -/
def roundTuple (tol : ℚ) (p : LTup) : Option LTup := do
  let rx ← round_coordinate p.2.1 tol
  let ry ← round_coordinate p.2.2 tol
  pure (p.1, rx, ry)

/-- All tuples rounded in input order; fails (as the Python loop raises)
when some rounding fails. -/
def round_labels (l : List LTup) (tol : ℚ) : Option (List LTup) :=
  match l with
  | [] => some []
  | p :: ps => do
    let q ← roundTuple tol p
    let qs ← round_labels ps tol
    pure (q :: qs)

/-- The rounded tuple for a nonzero tolerance. -/
def roundTupleVal (tol : ℚ) (p : LTup) : LTup :=
  (p.1, roundVal p.2.1 tol, roundVal p.2.2 tol)

theorem round_labels_eq_some (l : List LTup) (tol : ℚ) (h : tol ≠ 0) :
    round_labels l tol = some (l.map (roundTupleVal tol)) := by
  induction l with
  | nil => rfl
  | cons p ps ih =>
    simp [round_labels, roundTuple, round_coordinate_eq_some _ _ h, ih,
      roundTupleVal]

/-- `set(list(counter_a.keys()) + list(counter_b.keys()))` over rounded
tuples. -/
def coordUnion (ra rb : List LTup) : List LTup :=
  (ra.dedup ++ rb.dedup).dedup

/-- Ordering by label text only: the `key=lambda x: x[0]` of line 104. -/
def tupLabelLe (p q : LTup) : Prop := strLe p.1 q.1

instance : DecidableRel tupLabelLe := fun p q => by
  unfold tupLabelLe strLe; infer_instance

instance : IsTotal LTup tupLabelLe where
  total p q := charListLe_total p.1.data q.1.data

instance : IsTrans LTup tupLabelLe where
  trans _ _ _ h1 h2 := charListLe_trans h1 h2

/-- `all_label_tuples = sorted(set(...), key=lambda x: x[0])`. -/
def allLabelTuples (ra rb : List LTup) : List LTup :=
  List.insertionSort tupLabelLe (coordUnion ra rb)

/-- The row built for one rounded tuple (lines 109-129): only the label
text is displayed, counts and status refer to the whole tuple. -/
def mkCoordRow (ra rb : List LTup) (p : LTup) : Row :=
  { label := p.1
    count_a := cnt ra p
    count_b := cnt rb p
    status := statusOf (cnt ra p) (cnt rb p)
    diff := (cnt rb p : ℤ) - (cnt ra p : ℤ) }

/-- The data rows of the coordinate-aware branch, given the two rounded
tuple multisets. -/
def compareCoordRows (ra rb : List LTup) : List Row :=
  (allLabelTuples ra rb).map (mkCoordRow ra rb)

/-- The coordinate-aware branch of `compare_labels_multi`: round both
sides, then emit one row per distinct rounded tuple. -/
def compare_with_coordinates_rows (la lb : List LTup) (tol : ℚ) :
    Option (List Row) := do
  let ra ← round_labels la tol
  let rb ← round_labels lb tol
  pure (compareCoordRows ra rb)

/-- C5 counterexample: a negative tolerance is non-positive, yet the
coordinate comparison neither raises nor is rejected anywhere: it runs to
completion and produces an ordinary diff row. -/
theorem negative_tolerance_counterexample :
    (-1 : ℚ) < 0 ∧
    compare_with_coordinates_rows [("R1", 0, 0)] [] (-1) =
      some [{ label := "R1", count_a := 1, count_b := 0,
              status := "A Only", diff := -1 }] := by
  refine ⟨by norm_num, ?_⟩
  have h1 : roundVal 0 (-1) = 0 := by
    norm_num [roundVal, pyRound]
  have h2 : round_labels [("R1", (0 : ℚ), (0 : ℚ))] (-1) =
      some [("R1", 0, 0)] := by
    rw [round_labels_eq_some _ _ (by norm_num)]
    simp [roundTupleVal, h1]
  have h3 : round_labels ([] : List LTup) (-1) = some [] :=
    round_labels_eq_some [] (-1) (by norm_num)
  simp only [compare_with_coordinates_rows, h2, h3, Option.bind_eq_bind,
    Option.some_bind, pure]
  decide

theorem mem_allLabelTuples {ra rb : List LTup} {p : LTup} :
    p ∈ allLabelTuples ra rb ↔ p ∈ ra ∨ p ∈ rb := by
  unfold allLabelTuples
  rw [(List.perm_insertionSort tupLabelLe (coordUnion ra rb)).mem_iff]
  simp [coordUnion]

theorem statusOf_a_only {ca cb : ℕ} (ha : 0 < ca) (hb : cb = 0) :
    statusOf ca cb = "A Only" := by
  simp [statusOf, ha, hb]

theorem statusOf_b_only {ca cb : ℕ} (ha : ca = 0) (hb : 0 < cb) :
    statusOf ca cb = "B Only" := by
  simp [statusOf, ha, hb, Nat.pos_iff_ne_zero.mp hb]

/-- C10: with coordinates compared, rows are keyed by distinct rounded
tuples, one row each; a label whose rounded positions on the two sides are
disjoint yields both an "A Only" row and a "B Only" row carrying that
label, and no "Different" or "Same" row carries it. -/
theorem coordinate_mode_row_per_tuple (la lb : List LTup) (tol : ℚ)
    (label : String) (ht : tol ≠ 0)
    (hdisj : ∀ p ∈ la.map (roundTupleVal tol), p.1 = label →
      p ∉ lb.map (roundTupleVal tol))
    (hA : ∃ p ∈ la.map (roundTupleVal tol), p.1 = label)
    (hB : ∃ p ∈ lb.map (roundTupleVal tol), p.1 = label) :
    ∃ rows, compare_with_coordinates_rows la lb tol = some rows ∧
      rows.length =
        (coordUnion (la.map (roundTupleVal tol))
          (lb.map (roundTupleVal tol))).length ∧
      (∃ r ∈ rows, r.label = label ∧ r.status = "A Only") ∧
      (∃ r ∈ rows, r.label = label ∧ r.status = "B Only") ∧
      (∀ r ∈ rows, r.label = label →
        r.status ≠ "Different" ∧ r.status ≠ "Same") := by
  set ra := la.map (roundTupleVal tol) with hra
  set rb := lb.map (roundTupleVal tol) with hrb
  refine ⟨compareCoordRows ra rb, ?_, ?_, ?_, ?_, ?_⟩
  · simp [compare_with_coordinates_rows, round_labels_eq_some _ _ ht,
      ← hra, ← hrb]
  · rw [compareCoordRows, List.length_map, allLabelTuples,
      (List.perm_insertionSort tupLabelLe (coordUnion ra rb)).length_eq]
  · obtain ⟨p, hpa, hpl⟩ := hA
    refine ⟨mkCoordRow ra rb p,
      List.mem_map_of_mem _ (mem_allLabelTuples.mpr (Or.inl hpa)), hpl, ?_⟩
    exact statusOf_a_only (cnt_pos.mpr hpa) (cnt_eq_zero (hdisj p hpa hpl))
  · obtain ⟨p, hpb, hpl⟩ := hB
    have hpna : p ∉ ra := fun hpa => hdisj p hpa hpl hpb
    refine ⟨mkCoordRow ra rb p,
      List.mem_map_of_mem _ (mem_allLabelTuples.mpr (Or.inr hpb)), hpl, ?_⟩
    exact statusOf_b_only (cnt_eq_zero hpna) (cnt_pos.mpr hpb)
  · intro r hr hrl
    rcases List.mem_map.mp hr with ⟨p, hp, hpe⟩
    have hpl : p.1 = label := by
      rw [← hrl, ← hpe]
      rfl
    rcases mem_allLabelTuples.mp hp with hpa | hpb
    · have hs : r.status = "A Only" := by
        rw [← hpe]
        exact statusOf_a_only (cnt_pos.mpr hpa)
          (cnt_eq_zero (hdisj p hpa hpl))
      rw [hs]
      refine ⟨by decide, by decide⟩
    · have hpna : p ∉ ra := fun hpa => hdisj p hpa hpl hpb
      have hs : r.status = "B Only" := by
        rw [← hpe]
        exact statusOf_b_only (cnt_eq_zero hpna) (cnt_pos.mpr hpb)
      rw [hs]
      refine ⟨by decide, by decide⟩

theorem coordinate_mode_row_per_tuple_witness :
    ((1 : ℚ) ≠ 0) ∧
    (∀ p ∈ [("R1", (0 : ℚ), (0 : ℚ))].map (roundTupleVal 1), p.1 = "R1" →
      p ∉ [("R1", (1 : ℚ), (1 : ℚ))].map (roundTupleVal 1)) ∧
    (∃ p ∈ [("R1", (0 : ℚ), (0 : ℚ))].map (roundTupleVal 1), p.1 = "R1") ∧
    (∃ p ∈ [("R1", (1 : ℚ), (1 : ℚ))].map (roundTupleVal 1), p.1 = "R1") ∧
    (∃ rows, compare_with_coordinates_rows [("R1", 0, 0)] [("R1", 1, 1)] 1 =
        some rows ∧
      rows.length =
        (coordUnion ([("R1", (0 : ℚ), (0 : ℚ))].map (roundTupleVal 1))
          ([("R1", (1 : ℚ), (1 : ℚ))].map (roundTupleVal 1))).length ∧
      (∃ r ∈ rows, r.label = "R1" ∧ r.status = "A Only") ∧
      (∃ r ∈ rows, r.label = "R1" ∧ r.status = "B Only") ∧
      (∀ r ∈ rows, r.label = "R1" →
        r.status ≠ "Different" ∧ r.status ≠ "Same")) := by
  have hr0 : roundVal 0 1 = 0 := by norm_num [roundVal, pyRound]
  have hr1 : roundVal 1 1 = 1 := by norm_num [roundVal, pyRound]
  have hma : [("R1", (0 : ℚ), (0 : ℚ))].map (roundTupleVal 1) =
      [("R1", 0, 0)] := by
    simp [roundTupleVal, hr0]
  have hmb : [("R1", (1 : ℚ), (1 : ℚ))].map (roundTupleVal 1) =
      [("R1", 1, 1)] := by
    simp [roundTupleVal, hr1]
  refine ⟨by norm_num, ?_, ?_, ?_,
    coordinate_mode_row_per_tuple _ _ _ _ (by norm_num) ?_ ?_ ?_⟩ <;>
    simp only [hma, hmb] <;> decide

/-! ### Spatial grouper and rename detector
(`group_labels_by_coordinate`, `append_unmatched_pairs`,
`find_label_change_pairs`, `build_label_change_rows`,
`src/utils/coordinate_comparison.py`, lines 171-300).  The Python dict
from rounded coordinate to a `Counter` of labels is embedded as an
association list from coordinate to the multiset (list) of labels. -/

/-- A rounded coordinate. -/
abbrev Coord : Type := ℚ × ℚ

/-- The per-side grouping: coordinate keys in first-encounter order, each
with the multiset of labels seen there. -/
abbrev GroupMap : Type := List (Coord × List String)

/-- `coordinate_map[coord][label] += 1` in first-encounter key order. -/
def insertGroup : GroupMap → Coord → String → GroupMap
  | [], c, lab => [(c, [lab])]
  | (c0, labs) :: rest, c, lab =>
    if c0 = c then (c0, labs ++ [lab]) :: rest
    else (c0, labs) :: insertGroup rest c lab

/-- `group_labels_by_coordinate`: index rounded label tuples by
coordinate. -/
def group_labels_by_coordinate (l : List LTup) : GroupMap :=
  l.foldl (fun m p => insertGroup m (p.2.1, p.2.2) p.1) []

/-- `group.get(coord)`: the dict lookup. -/
def lookupCoord (m : GroupMap) (c : Coord) : Option (List String) :=
  (m.find? (fun e => e.1 = c)).map (fun e => e.2)

/-- The dict's key list. -/
def groupKeys (m : GroupMap) : List Coord := m.map (fun e => e.1)

/-- Python's `<=` on coordinate pairs: lexicographic. -/
def coordLe (c d : Coord) : Prop :=
  c.1 < d.1 ∨ (c.1 = d.1 ∧ c.2 ≤ d.2)

instance : DecidableRel coordLe := fun c d => by
  unfold coordLe; infer_instance

instance : IsTotal Coord coordLe where
  total c d := by
    rcases lt_trichotomy c.1 d.1 with h | h | h
    · exact Or.inl (Or.inl h)
    · rcases le_total c.2 d.2 with h2 | h2
      · exact Or.inl (Or.inr ⟨h, h2⟩)
      · exact Or.inr (Or.inr ⟨h.symm, h2⟩)
    · exact Or.inr (Or.inl h)

instance : IsTrans Coord coordLe where
  trans a b c h1 h2 := by
    rcases h1 with h1 | ⟨e1, l1⟩
    · rcases h2 with h2 | ⟨e2, l2⟩
      · exact Or.inl (lt_trans h1 h2)
      · exact Or.inl (by rw [← e2]; exact h1)
    · rcases h2 with h2 | ⟨e2, l2⟩
      · exact Or.inl (by rw [e1]; exact h2)
      · exact Or.inr ⟨e1.trans e2, le_trans l1 l2⟩

/-- `sorted(set(group_a.keys()) | set(group_b.keys()))` (line 216). -/
def all_coords (ga gb : GroupMap) : List Coord :=
  List.insertionSort coordLe ((groupKeys ga ++ groupKeys gb).dedup)

/-- One proposed label-change record: the coordinate it was found at, and
the two sides' labels (`None` when that side has nothing to pair). -/
structure ChangePair where
  coordinate : Coord
  label_a : Option String
  label_b : Option String
deriving DecidableEq, Repr

/-- `append_unmatched_pairs` (lines 190-198): one row per occurrence of
each label, labels in sorted order, the other side left `None`. -/
def append_unmatched_pairs (coord : Coord) (labels : List String)
    (source : String) : List ChangePair :=
  (sortStrings labels.dedup).flatMap (fun lab =>
    List.replicate (cnt labels lab)
      { coordinate := coord
        label_a := if source = "A" then some lab else Option.none
        label_b := if source = "B" then some lab else Option.none })

/-- The leftover multiset after cancelling, per shared label, the shared
minimum count (lines 233-245): key order of side `a`, count
`count_a - min(count_a, count_b)`. -/
def cancelShared (a b : List String) : List String :=
  a.dedup.flatMap (fun lab =>
    List.replicate (cnt a lab - min (cnt a lab) (cnt b lab)) lab)

/-- The body of the `for coord in all_coords` loop of
`find_label_change_pairs` (lines 218-276). -/
def processCoord (ga gb : GroupMap) (c : Coord) : List ChangePair :=
  match lookupCoord ga c, lookupCoord gb c with
  | Option.none, Option.none => []
  | Option.none, some lbl => append_unmatched_pairs c lbl "B"
  | some lal, Option.none => append_unmatched_pairs c lal "A"
  | some lal, some lbl =>
    let ra := cancelShared lal lbl
    let rb := cancelShared lbl lal
    if ra = [] ∨ rb = [] then []
    else
      let sa := sortStrings ra
      let sb := sortStrings rb
      let m := min sa.length sb.length
      List.zipWith (fun x y =>
          { coordinate := c, label_a := some x, label_b := some y }) sa sb
        ++ (sa.drop m).map (fun x =>
          { coordinate := c, label_a := some x, label_b := Option.none })
        ++ (sb.drop m).map (fun y =>
          { coordinate := c, label_a := Option.none, label_b := some y })

/-- `find_label_change_pairs`: the concatenation of the per-coordinate
records over the sorted coordinate union. -/
def find_label_change_pairs (ga gb : GroupMap) : List ChangePair :=
  (all_coords ga gb).flatMap (processCoord ga gb)

theorem exists_of_mem_zipWith {α β γ : Type} {f : α → β → γ} :
    ∀ {l1 : List α} {l2 : List β} {x : γ},
      x ∈ List.zipWith f l1 l2 → ∃ a b, x = f a b
  | [], _, _, h => by simp at h
  | _ :: _, [], _, h => by simp at h
  | a :: as, b :: bs, x, h => by
    rcases List.mem_cons.mp h with he | hm
    · exact ⟨a, b, he⟩
    · exact exists_of_mem_zipWith hm

theorem mem_append_unmatched {c : Coord} {L : List String} {src : String}
    {p : ChangePair} (h : p ∈ append_unmatched_pairs c L src) :
    ∃ lab, p = ChangePair.mk c
      (if src = "A" then some lab else Option.none)
      (if src = "B" then some lab else Option.none) := by
  rcases List.mem_flatMap.mp h with ⟨lab, _, hp⟩
  exact ⟨lab, List.eq_of_mem_replicate hp⟩

/-- Every record the per-coordinate loop body emits carries that
coordinate and at least one label. -/
theorem processCoord_shape (ga gb : GroupMap) (c : Coord) (p : ChangePair)
    (h : p ∈ processCoord ga gb c) :
    p.coordinate = c ∧
      ¬(p.label_a = Option.none ∧ p.label_b = Option.none) := by
  cases hA : lookupCoord ga c with
  | none =>
    cases hB : lookupCoord gb c with
    | none =>
      have harm : processCoord ga gb c = [] := by
        unfold processCoord
        rw [hA, hB]
      rw [harm] at h
      simp at h
    | some lbl =>
      have harm : processCoord ga gb c = append_unmatched_pairs c lbl "B" := by
        unfold processCoord
        rw [hA, hB]
      rw [harm] at h
      rcases mem_append_unmatched h with ⟨lab, he⟩
      subst he
      exact ⟨rfl, by simp⟩
  | some lal =>
    cases hB : lookupCoord gb c with
    | none =>
      have harm : processCoord ga gb c = append_unmatched_pairs c lal "A" := by
        unfold processCoord
        rw [hA, hB]
      rw [harm] at h
      rcases mem_append_unmatched h with ⟨lab, he⟩
      subst he
      exact ⟨rfl, by simp⟩
    | some lbl =>
      have harm : processCoord ga gb c =
          (if cancelShared lal lbl = [] ∨ cancelShared lbl lal = [] then
            ([] : List ChangePair)
          else
            List.zipWith (fun x y =>
                ChangePair.mk c (some x) (some y))
              (sortStrings (cancelShared lal lbl))
              (sortStrings (cancelShared lbl lal))
            ++ ((sortStrings (cancelShared lal lbl)).drop
                (min (sortStrings (cancelShared lal lbl)).length
                  (sortStrings (cancelShared lbl lal)).length)).map
                (fun x => ChangePair.mk c (some x) Option.none)
            ++ ((sortStrings (cancelShared lbl lal)).drop
                (min (sortStrings (cancelShared lal lbl)).length
                  (sortStrings (cancelShared lbl lal)).length)).map
                (fun y => ChangePair.mk c Option.none (some y))) := by
        unfold processCoord
        rw [hA, hB]
      rw [harm] at h
      by_cases hif : cancelShared lal lbl = [] ∨ cancelShared lbl lal = []
      · rw [if_pos hif] at h
        simp at h
      · rw [if_neg hif] at h
        rcases List.mem_append.mp h with h12 | h3
        · rcases List.mem_append.mp h12 with h1 | h2
          · rcases exists_of_mem_zipWith h1 with ⟨x, y, he⟩
            subst he
            exact ⟨rfl, by simp⟩
          · rcases List.mem_map.mp h2 with ⟨x, _, he⟩
            subst he
            exact ⟨rfl, by simp⟩
        · rcases List.mem_map.mp h3 with ⟨y, _, he⟩
          subst he
          exact ⟨rfl, by simp⟩

/-- C9: every change pair emitted by rename detection carries at least one
label, and its coordinate is one of the two sides' coordinate keys. -/
theorem change_pairs_carry_labels (ga gb : GroupMap) (p : ChangePair)
    (h : p ∈ find_label_change_pairs ga gb) :
    ¬(p.label_a = Option.none ∧ p.label_b = Option.none) ∧
    p.coordinate ∈ groupKeys ga ++ groupKeys gb := by
  rcases List.mem_flatMap.mp h with ⟨c, hc, hp⟩
  obtain ⟨hcoord, hlab⟩ := processCoord_shape ga gb c p hp
  refine ⟨hlab, ?_⟩
  rw [hcoord]
  unfold all_coords at hc
  rw [(List.perm_insertionSort coordLe _).mem_iff, List.mem_dedup] at hc
  exact hc

theorem change_pairs_carry_labels_witness :
    (ChangePair.mk ((0 : ℚ), (0 : ℚ)) (some "R1") Option.none ∈
      find_label_change_pairs [(((0 : ℚ), (0 : ℚ)), ["R1"])] []) ∧
    (¬((ChangePair.mk ((0 : ℚ), (0 : ℚ)) (some "R1")
          Option.none).label_a = Option.none ∧
        (ChangePair.mk ((0 : ℚ), (0 : ℚ)) (some "R1")
          Option.none).label_b = Option.none) ∧
      (ChangePair.mk ((0 : ℚ), (0 : ℚ)) (some "R1")
          Option.none).coordinate ∈
        groupKeys [(((0 : ℚ), (0 : ℚ)), ["R1"])] ++ groupKeys []) :=
  ⟨by decide, change_pairs_carry_labels _ _ _ (by decide)⟩

theorem filter_flatMap_key {α β : Type} [DecidableEq α] :
    ∀ (l : List α) (f : α → List β) (key : β → α) (c : α), l.Nodup →
      c ∈ l → (∀ a ∈ l, ∀ b ∈ f a, key b = a) →
      (l.flatMap f).filter (fun b => key b = c) = f c
  | [], _, _, _, _, hc, _ => absurd hc (List.not_mem_nil _)
  | a :: as, f, key, c, hl, hc, hkey => by
    rcases List.nodup_cons.mp hl with ⟨ha, has⟩
    rw [List.flatMap_cons, List.filter_append]
    rcases List.mem_cons.mp hc with he | hm
    · subst he
      have h1 : (f c).filter (fun b => key b = c) = f c :=
        List.filter_eq_self.mpr fun b hb => by
          simp [hkey c (List.mem_cons_self c as) b hb]
      have h2 : (as.flatMap f).filter (fun b => key b = c) = [] := by
        apply List.filter_eq_nil_iff.mpr
        intro b hb
        rcases List.mem_flatMap.mp hb with ⟨a2, ha2, hb2⟩
        have := hkey a2 (List.mem_cons_of_mem c ha2) b hb2
        simp only [this, decide_eq_true_eq]
        intro hac
        exact ha (hac ▸ ha2)
      rw [h1, h2, List.append_nil]
    · have hac : a ≠ c := fun he => ha (he ▸ hm)
      have h1 : (f a).filter (fun b => key b = c) = [] := by
        apply List.filter_eq_nil_iff.mpr
        intro b hb
        have := hkey a (List.mem_cons_self a as) b hb
        simp only [this, decide_eq_true_eq]
        exact hac
      rw [h1, List.nil_append]
      exact filter_flatMap_key as f key c has hm
        (fun a2 ha2 => hkey a2 (List.mem_cons_of_mem a ha2))

theorem mem_groupKeys_of_lookup {m : GroupMap} {c : Coord}
    {L : List String} (h : lookupCoord m c = some L) : c ∈ groupKeys m := by
  unfold lookupCoord at h
  cases hfind : m.find? (fun e => decide (e.1 = c)) with
  | none => rw [hfind] at h; simp at h
  | some e =>
    have he : e ∈ m := List.mem_of_find?_eq_some hfind
    have hec : e.1 = c := by
      have := List.find?_some hfind
      simpa using this
    exact hec ▸ List.mem_map_of_mem (fun x => x.1) he

/-- C3 amended: at a coordinate present on both sides, provided BOTH
sides still have leftovers after cancelling the shared minimum count of
each identical label, the leftovers are flattened into two sorted
sequences, paired index-by-index up to the shorter length, and the
surplus is emitted one-sided.  (When either side's leftover is empty, the
coordinate emits nothing: see the counterexample.) -/
theorem rename_pairing_at_coordinate (ga gb : GroupMap) (c : Coord)
    (A B : List String)
    (hA : lookupCoord ga c = some A) (hB : lookupCoord gb c = some B)
    (hra : cancelShared A B ≠ []) (hrb : cancelShared B A ≠ []) :
    (find_label_change_pairs ga gb).filter (fun p => p.coordinate = c) =
      List.zipWith (fun x y => ChangePair.mk c (some x) (some y))
        (sortStrings (cancelShared A B)) (sortStrings (cancelShared B A))
      ++ ((sortStrings (cancelShared A B)).drop
          (min (sortStrings (cancelShared A B)).length
            (sortStrings (cancelShared B A)).length)).map
          (fun x => ChangePair.mk c (some x) Option.none)
      ++ ((sortStrings (cancelShared B A)).drop
          (min (sortStrings (cancelShared A B)).length
            (sortStrings (cancelShared B A)).length)).map
          (fun y => ChangePair.mk c Option.none (some y)) := by
  have hnodup : (all_coords ga gb).Nodup :=
    ((List.perm_insertionSort coordLe _).nodup_iff).mpr (List.nodup_dedup _)
  have hcmem : c ∈ all_coords ga gb := by
    unfold all_coords
    rw [(List.perm_insertionSort coordLe _).mem_iff, List.mem_dedup,
      List.mem_append]
    exact Or.inl (mem_groupKeys_of_lookup hA)
  have harm : processCoord ga gb c =
      (if cancelShared A B = [] ∨ cancelShared B A = [] then
        ([] : List ChangePair)
      else
        List.zipWith (fun x y => ChangePair.mk c (some x) (some y))
          (sortStrings (cancelShared A B)) (sortStrings (cancelShared B A))
        ++ ((sortStrings (cancelShared A B)).drop
            (min (sortStrings (cancelShared A B)).length
              (sortStrings (cancelShared B A)).length)).map
            (fun x => ChangePair.mk c (some x) Option.none)
        ++ ((sortStrings (cancelShared B A)).drop
            (min (sortStrings (cancelShared A B)).length
              (sortStrings (cancelShared B A)).length)).map
            (fun y => ChangePair.mk c Option.none (some y))) := by
    unfold processCoord
    rw [hA, hB]
  rw [find_label_change_pairs,
    filter_flatMap_key _ _ ChangePair.coordinate c hnodup hcmem
      (fun a _ b hb => (processCoord_shape ga gb a b hb).1),
    harm, if_neg (not_or.mpr ⟨hra, hrb⟩)]

/-- C3 counterexample: coordinate `(0,0)` has labels `{R1, R1}` in A and
`{R1}` in B; after cancellation A still holds one leftover `R1` while B
holds nothing, and — against the claim's unconditional surplus clause —
no one-sided pair is emitted: the output is empty. -/
theorem rename_surplus_counterexample :
    cancelShared ["R1", "R1"] ["R1"] = ["R1"] ∧
    cancelShared ["R1"] ["R1", "R1"] = [] ∧
    find_label_change_pairs [(((0 : ℚ), (0 : ℚ)), ["R1", "R1"])]
      [(((0 : ℚ), (0 : ℚ)), ["R1"])] = [] ∧
    ChangePair.mk ((0 : ℚ), (0 : ℚ)) (some "R1") Option.none ∉
      find_label_change_pairs [(((0 : ℚ), (0 : ℚ)), ["R1", "R1"])]
        [(((0 : ℚ), (0 : ℚ)), ["R1"])] := by
  refine ⟨by decide, by decide, by decide, by decide⟩

theorem rename_pairing_at_coordinate_witness :
    (lookupCoord [(((10 : ℚ), (10 : ℚ)), ["R1", "R1", "R2"])]
        ((10 : ℚ), (10 : ℚ)) = some ["R1", "R1", "R2"]) ∧
    (lookupCoord [(((10 : ℚ), (10 : ℚ)), ["R1", "R3"])]
        ((10 : ℚ), (10 : ℚ)) = some ["R1", "R3"]) ∧
    (cancelShared ["R1", "R1", "R2"] ["R1", "R3"] ≠ []) ∧
    (cancelShared ["R1", "R3"] ["R1", "R1", "R2"] ≠ []) ∧
    ((find_label_change_pairs [(((10 : ℚ), (10 : ℚ)), ["R1", "R1", "R2"])]
        [(((10 : ℚ), (10 : ℚ)), ["R1", "R3"])]).filter
          (fun p => p.coordinate = ((10 : ℚ), (10 : ℚ))) =
      List.zipWith (fun x y =>
          ChangePair.mk ((10 : ℚ), (10 : ℚ)) (some x) (some y))
        (sortStrings (cancelShared ["R1", "R1", "R2"] ["R1", "R3"]))
        (sortStrings (cancelShared ["R1", "R3"] ["R1", "R1", "R2"]))
      ++ ((sortStrings (cancelShared ["R1", "R1", "R2"] ["R1", "R3"])).drop
          (min (sortStrings (cancelShared ["R1", "R1", "R2"]
              ["R1", "R3"])).length
            (sortStrings (cancelShared ["R1", "R3"]
              ["R1", "R1", "R2"])).length)).map
          (fun x => ChangePair.mk ((10 : ℚ), (10 : ℚ)) (some x) Option.none)
      ++ ((sortStrings (cancelShared ["R1", "R3"] ["R1", "R1", "R2"])).drop
          (min (sortStrings (cancelShared ["R1", "R1", "R2"]
              ["R1", "R3"])).length
            (sortStrings (cancelShared ["R1", "R3"]
              ["R1", "R1", "R2"])).length)).map
          (fun y => ChangePair.mk ((10 : ℚ), (10 : ℚ)) Option.none
            (some y))) ∧
    (find_label_change_pairs [(((10 : ℚ), (10 : ℚ)), ["R1", "R1", "R2"])]
        [(((10 : ℚ), (10 : ℚ)), ["R1", "R3"])] =
      [ChangePair.mk ((10 : ℚ), (10 : ℚ)) (some "R1") (some "R3"),
       ChangePair.mk ((10 : ℚ), (10 : ℚ)) (some "R2") Option.none]) := by
  refine ⟨by decide, by decide, by decide, by decide,
    rename_pairing_at_coordinate _ _ _ _ _ (by decide) (by decide)
      (by decide) (by decide), by decide⟩

/-! ### Change-pair rows
(`build_label_change_rows`, `src/utils/coordinate_comparison.py`,
lines 281-300). -/

/-- One exported label-change row: `Coordinate X`, `Coordinate Y`,
`Label A`, `Label B`. -/
structure ChangeRow where
  coordX : ℚ
  coordY : ℚ
  labelA : String
  labelB : String
deriving DecidableEq, Repr

/-- `build_label_change_rows`: one row per change pair, in order, an
absent label becoming the empty string. -/
def build_label_change_rows (pairs : List ChangePair) : List ChangeRow :=
  pairs.map (fun p =>
    { coordX := p.coordinate.1
      coordY := p.coordinate.2
      labelA := p.label_a.getD ""
      labelB := p.label_b.getD "" })

/-- Python's tuple comparison on the `(Label A, Label B)` sort key. -/
def changeRowLe (r s : ChangeRow) : Prop :=
  (strLe r.labelA s.labelA ∧ r.labelA ≠ s.labelA) ∨
  (r.labelA = s.labelA ∧ strLe r.labelB s.labelB)

instance : DecidableRel changeRowLe := fun r s => by
  unfold changeRowLe strLe; infer_instance

instance : IsTotal ChangeRow changeRowLe where
  total r s := by
    by_cases he : r.labelA = s.labelA
    · rcases charListLe_total r.labelB.data s.labelB.data with h | h
      · exact Or.inl (Or.inr ⟨he, h⟩)
      · exact Or.inr (Or.inr ⟨he.symm, h⟩)
    · rcases charListLe_total r.labelA.data s.labelA.data with h | h
      · exact Or.inl (Or.inl ⟨h, he⟩)
      · exact Or.inr (Or.inl ⟨h, Ne.symm he⟩)

instance : IsTrans ChangeRow changeRowLe where
  trans r s t h1 h2 := by
    rcases h1 with ⟨l1, n1⟩ | ⟨e1, b1⟩ <;>
      rcases h2 with ⟨l2, n2⟩ | ⟨e2, b2⟩
    · refine Or.inl ⟨charListLe_trans l1 l2, fun he => ?_⟩
      have hts : strLe t.labelA s.labelA := by
        rw [← he]; exact l1
      exact n2 (strLe_antisymm l2 hts)
    · refine Or.inl ⟨?_, ?_⟩
      · rw [← e2]; exact l1
      · rw [← e2]; exact n1
    · refine Or.inl ⟨?_, ?_⟩
      · rw [e1]; exact l2
      · rw [e1]; exact n2
    · exact Or.inr ⟨e1.trans e2, charListLe_trans b1 b2⟩

/-- Modelled from the spec: the presentation layer that consumes
`build_label_change_rows` is not among the sources; §4.6 states that the
final presentation sorts the rows by `(label-in-A, label-in-B)`. -/
def present_label_change_rows (pairs : List ChangePair) : List ChangeRow :=
  List.insertionSort changeRowLe (build_label_change_rows pairs)

/-- C8: rows carry the pair's coordinate and its two labels (blank when
absent), and the final presentation is those rows sorted by
`(Label A, Label B)`. -/
theorem label_change_rows_presentation (pairs : List ChangePair) :
    (present_label_change_rows pairs).Perm
        (build_label_change_rows pairs) ∧
    List.Sorted changeRowLe (present_label_change_rows pairs) ∧
    ∀ p ∈ pairs,
      ChangeRow.mk p.coordinate.1 p.coordinate.2 (p.label_a.getD "")
          (p.label_b.getD "") ∈ present_label_change_rows pairs := by
  refine ⟨List.perm_insertionSort changeRowLe _,
    List.sorted_insertionSort changeRowLe _, ?_⟩
  intro p hp
  rw [present_label_change_rows,
    (List.perm_insertionSort changeRowLe _).mem_iff]
  exact List.mem_map_of_mem _ hp

theorem label_change_rows_presentation_witness :
    ((present_label_change_rows
        [ChangePair.mk ((0 : ℚ), (0 : ℚ)) (some "B") Option.none,
         ChangePair.mk ((0 : ℚ), (0 : ℚ)) (some "A") (some "C")]).Perm
        (build_label_change_rows
          [ChangePair.mk ((0 : ℚ), (0 : ℚ)) (some "B") Option.none,
           ChangePair.mk ((0 : ℚ), (0 : ℚ)) (some "A") (some "C")]) ∧
      List.Sorted changeRowLe (present_label_change_rows
        [ChangePair.mk ((0 : ℚ), (0 : ℚ)) (some "B") Option.none,
         ChangePair.mk ((0 : ℚ), (0 : ℚ)) (some "A") (some "C")]) ∧
      ∀ p ∈ [ChangePair.mk ((0 : ℚ), (0 : ℚ)) (some "B") Option.none,
             ChangePair.mk ((0 : ℚ), (0 : ℚ)) (some "A") (some "C")],
        ChangeRow.mk p.coordinate.1 p.coordinate.2 (p.label_a.getD "")
            (p.label_b.getD "") ∈ present_label_change_rows
          [ChangePair.mk ((0 : ℚ), (0 : ℚ)) (some "B") Option.none,
           ChangePair.mk ((0 : ℚ), (0 : ℚ)) (some "A") (some "C")]) ∧
    present_label_change_rows
        [ChangePair.mk ((0 : ℚ), (0 : ℚ)) (some "B") Option.none,
         ChangePair.mk ((0 : ℚ), (0 : ℚ)) (some "A") (some "C")] =
      [ChangeRow.mk 0 0 "A" "C", ChangeRow.mk 0 0 "B" ""] :=
  ⟨label_change_rows_presentation _, by decide⟩

end DxfLabelDiff
